import Mathlib

/-!
Verification of the sentence-index / keyword-search core of `app.py`
(TriBleProject).

The Python source is shallowly embedded over `List Char` strings:

* `extract_sentences`     — the regex sentence splitter (`re.split` with the
  abbreviation-aware pattern), modelled character by character over the
  ASCII fragment of `\s`, `\w`, `[A-Z]`, `[a-z]`.
* `preprocess_pdf`        — the parallel build: each page task yields either
  its entry chunk (`Except.ok`) or an exception (`Except.error`); the list
  of task outcomes is given in completion order (the order `as_completed`
  yields them), mirroring the collect-then-sort loop and its `except` arm.
* `search_keywords_in_index` / `search_keywords_in_pdf` — the scan with
  Python's case-insensitive substring test and the `re.sub` highlighter.
* `save_index_to_file` / `load_index_from_file` — `json.dump` (with
  `ensure_ascii` escaping) rendered to the file's character contents, and
  a parser for that record layout modelling `json.load`.

Wall-clock durations and the filesystem are passed as explicit parameters.
-/

/-- One record of the index: `{'Page Number': page_num + 1, 'Sentence': sentence}`. -/
structure IndexEntry where
  pageNumber : Nat
  sentence : List Char
deriving DecidableEq

/-- ASCII fragment of Python's regex class `\s`. -/
def isPySpace (c : Char) : Bool :=
  c = ' ' || c = '\t' || c = '\n' || c = '\x0d' || c = '\x0b' || c = '\x0c'

/-- ASCII fragment of Python's regex class `\w`. -/
def isPyWord (c : Char) : Bool :=
  c.isAlphanum || c = '_'

/-- The split pattern `(?<!\w\.\w.)(?<![A-Z][a-z]\.)(?<=\.|\?)\s` of
`extract_sentences`, evaluated at absolute position `p` of `full`, whose
character is `c`: a whitespace separator preceded by `.` or `?`, except after
a `\w.\w.` context (e.g. `U.S.`) or an `[A-Z][a-z].` context (e.g. `Mr.`).
The second character of `\w\.\w.` is a literal dot and its fourth is the
regex wildcard (any character but a newline). -/
def isSplitPoint (full : List Char) (p : Nat) (c : Char) : Bool :=
  isPySpace c
    && (decide (1 ≤ p) && (full.getD (p - 1) ' ' = '.' || full.getD (p - 1) ' ' = '?'))
    && !(decide (4 ≤ p) && isPyWord (full.getD (p - 4) ' ')
          && full.getD (p - 3) ' ' = '.' && isPyWord (full.getD (p - 2) ' ')
          && !(full.getD (p - 1) ' ' = '\n'))
    && !(decide (3 ≤ p) && (full.getD (p - 3) ' ').isUpper
          && (full.getD (p - 2) ' ').isLower && full.getD (p - 1) ' ' = '.')

/-- `re.split` scan: walk the text, cutting at every separator position and
dropping the separator character.  `cur` holds the current piece reversed. -/
def pySplitAux (full : List Char) : List Char → Nat → List Char → List (List Char)
  | [], _, cur => [cur.reverse]
  | c :: rest, p, cur =>
    if isSplitPoint full p c then
      cur.reverse :: pySplitAux full rest (p + 1) []
    else
      pySplitAux full rest (p + 1) (c :: cur)

/-- `re.split(r'(?<!\w\.\w.)(?<![A-Z][a-z]\.)(?<=\.|\?)\s', text)`.
On the empty string this returns `[[]]`, exactly as `re.split` returns `['']`. -/
def pySplit (text : List Char) : List (List Char) :=
  pySplitAux text text 0 []

/-- `extract_sentences(page_num, text)` from `app.py`. -/
def extract_sentences (page_num : Nat) (text : List Char) : List IndexEntry :=
  (pySplit text).map fun sentence => ⟨page_num + 1, sentence⟩

/-- The chunk produced by the task submitted for each `page_num` in
`range(total_pages)`: the submission loop of `preprocess_pdf`. -/
def buildChunks (texts : List (List Char)) (page_num : Nat) : List (List IndexEntry) :=
  match texts with
  | [] => []
  | t :: rest => extract_sentences page_num t :: buildChunks rest (page_num + 1)

/-- The sort key relation of `index.sort(key=lambda x: x['Page Number'])`. -/
def pageLe (a b : IndexEntry) : Prop :=
  a.pageNumber ≤ b.pageNumber

instance : DecidableRel pageLe := fun a b => Nat.decLe a.pageNumber b.pageNumber

instance : IsTotal IndexEntry pageLe := ⟨fun a b => Nat.le_total a.pageNumber b.pageNumber⟩

instance : IsTrans IndexEntry pageLe := ⟨fun _ _ _ hab hbc => Nat.le_trans hab hbc⟩

/-- Python's `list.sort` with key `Page Number`: a stable ascending sort, which
is extensionally the stable insertion sort by the same key. -/
def sortByPage (l : List IndexEntry) : List IndexEntry :=
  List.insertionSort pageLe l

/-- The collection loop `for future in as_completed(futures): index.extend(future.result())`.
A raised task exception stops the loop; the entries gathered so far survive
(the `except` arm only prints).  Returns the gathered entries and whether the
loop completed without an exception. -/
def collectResults (acc : List IndexEntry) :
    List (Except Unit (List IndexEntry)) → List IndexEntry × Bool
  | [] => (acc, true)
  | Except.ok chunk :: rest => collectResults (acc ++ chunk) rest
  | Except.error _ :: _rest => (acc, false)

/-- `preprocess_pdf`, given the per-page task outcomes in completion order:
collect result chunks until the list ends or a task raises; sort by page
number only when every task succeeded (an exception jumps over the sort into
the `except` arm, after which the partially filled `index` is returned). -/
def preprocess_pdf (results : List (Except Unit (List IndexEntry))) : List IndexEntry :=
  match collectResults [] results with
  | (index, true) => sortByPage index
  | (index, false) => index

theorem extract_sentences_page {page_num : Nat} {text : List Char} {e : IndexEntry}
    (h : e ∈ extract_sentences page_num text) : e.pageNumber = page_num + 1 := by
  obtain ⟨s, -, rfl⟩ := List.mem_map.mp h
  rfl

/-- C3 counterexample: on empty page text, `extract_sentences` returns one
entry holding the empty sentence (since `re.split` returns `['']`), not the
empty sequence the claim demands. -/
theorem extract_sentences_empty_counterexample :
    extract_sentences 0 [] ≠ [] ∧ extract_sentences 0 [] = [⟨1, []⟩] := by
  decide

/-- C3 amended: segmentation of empty page text yields exactly one
`IndexEntry`, carrying page number `pageIndex + 1` and the empty sentence
string. -/
theorem extract_sentences_empty :
    ∀ page_num : Nat, extract_sentences page_num [] = [⟨page_num + 1, []⟩] := by
  intro page_num
  rfl

theorem collectResults_ok (cs : List (List IndexEntry)) :
    ∀ acc, collectResults acc (cs.map Except.ok) = (acc ++ cs.flatten, true) := by
  induction cs with
  | nil => intro acc; simp [collectResults]
  | cons c cs ih =>
    intro acc
    simp only [List.map_cons, collectResults, ih, List.flatten]
    simp [List.append_assoc]

theorem collectResults_error (pre : List (List IndexEntry))
    (post : List (Except Unit (List IndexEntry))) :
    ∀ acc, collectResults acc (pre.map Except.ok ++ Except.error () :: post)
      = (acc ++ pre.flatten, false) := by
  induction pre with
  | nil => intro acc; simp [collectResults]
  | cons c pre ih =>
    intro acc
    simp only [List.map_cons, List.cons_append, collectResults, List.append_eq]
    rw [ih]
    simp [List.append_assoc]

theorem preprocess_pdf_ok (cs : List (List IndexEntry)) :
    preprocess_pdf (cs.map Except.ok) = sortByPage cs.flatten := by
  simp [preprocess_pdf, collectResults_ok]

/-- C4 counterexample: one page task succeeds and is collected, a later task
raises; `preprocess_pdf` returns the already-collected entry, not the empty
index the claim demands. -/
theorem preprocess_pdf_abort_counterexample :
    preprocess_pdf [Except.ok [⟨1, ['a', '.']⟩], Except.error ()] = [⟨1, ['a', '.']⟩] ∧
      preprocess_pdf [Except.ok [⟨1, ['a', '.']⟩], Except.error ()] ≠ [] := by
  decide

/-- C4 amended: when a per-page task raises, `preprocess_pdf` stops collecting
at the failing task and returns exactly the entries of the chunks collected
before it, unsorted; the result is empty only when no chunk was collected
before the failure. -/
theorem preprocess_pdf_abort (pre : List (List IndexEntry))
    (post : List (Except Unit (List IndexEntry))) :
    preprocess_pdf (pre.map Except.ok ++ Except.error () :: post) = pre.flatten := by
  simp [preprocess_pdf, collectResults_error]

/-- C6 counterexample: a failing later task makes `preprocess_pdf` return the
collected chunks without the final sort, so a completion order that delivers
page 2 before page 1 yields an index with decreasing page numbers. -/
theorem preprocess_pdf_order_counterexample :
    preprocess_pdf [Except.ok [⟨2, ['b']⟩], Except.ok [⟨1, ['a']⟩], Except.error ()]
        = [⟨2, ['b']⟩, ⟨1, ['a']⟩] ∧
      ¬ List.Chain' pageLe
        (preprocess_pdf [Except.ok [⟨2, ['b']⟩], Except.ok [⟨1, ['a']⟩], Except.error ()]) := by
  constructor
  · decide
  · intro h
    have := List.Chain'.rel_head h
    simp [preprocess_pdf, collectResults, pageLe] at this

/-- C6 amended: every index produced by a build in which no per-page task
raised (so the final `index.sort` runs) has non-decreasing page numbers
across adjacent entries; only the exception path can return an unsorted
partial index. -/
theorem preprocess_pdf_sorted (cs : List (List IndexEntry)) :
    List.Chain' pageLe (preprocess_pdf (cs.map Except.ok)) := by
  rw [preprocess_pdf_ok]
  exact (List.sorted_insertionSort pageLe cs.flatten).chain'

theorem orderedInsert_comm (a b : IndexEntry) (h : a.pageNumber ≠ b.pageNumber) :
    ∀ l, List.orderedInsert pageLe a (List.orderedInsert pageLe b l)
      = List.orderedInsert pageLe b (List.orderedInsert pageLe a l)
  | [] => by
    simp only [List.orderedInsert]
    by_cases hab : pageLe a b
    · have hba : ¬ pageLe b a := by simp only [pageLe] at *; omega
      simp [hab, hba]
    · have hba : pageLe b a := by simp only [pageLe] at *; omega
      simp [hab, hba]
  | x :: l => by
    have ih := orderedInsert_comm a b h l
    by_cases hbx : pageLe b x <;> by_cases hax : pageLe a x
    · by_cases hab : pageLe a b
      · have hba : ¬ pageLe b a := by simp only [pageLe] at *; omega
        simp [List.orderedInsert, hbx, hax, hab, hba]
      · have hba : pageLe b a := by simp only [pageLe] at *; omega
        simp [List.orderedInsert, hbx, hax, hab, hba]
    · have hab : ¬ pageLe a b := by simp only [pageLe] at *; omega
      simp [List.orderedInsert, hbx, hax, hab]
    · have hba : ¬ pageLe b a := by simp only [pageLe] at *; omega
      simp [List.orderedInsert, hbx, hax, hba]
    · simp [List.orderedInsert, hbx, hax, ih]

theorem foldr_orderedInsert_pull (b : IndexEntry) :
    ∀ (u : List IndexEntry) (S : List IndexEntry),
      (∀ x ∈ u, x.pageNumber ≠ b.pageNumber) →
      List.foldr (List.orderedInsert pageLe) (List.orderedInsert pageLe b S) u
        = List.orderedInsert pageLe b (List.foldr (List.orderedInsert pageLe) S u) := by
  intro u
  induction u with
  | nil => intro S _; rfl
  | cons a u ih =>
    intro S hu
    simp only [List.foldr_cons]
    rw [ih S fun x hx => hu x (List.mem_cons_of_mem a hx),
      orderedInsert_comm a b (hu a (List.mem_cons_self a u))]

theorem foldr_orderedInsert_swap :
    ∀ (v u S : List IndexEntry),
      (∀ x ∈ u, ∀ y ∈ v, x.pageNumber ≠ y.pageNumber) →
      List.foldr (List.orderedInsert pageLe) (List.foldr (List.orderedInsert pageLe) S v) u
        = List.foldr (List.orderedInsert pageLe) (List.foldr (List.orderedInsert pageLe) S u) v := by
  intro v
  induction v with
  | nil => intro u S _; rfl
  | cons b v ih =>
    intro u S h
    simp only [List.foldr_cons]
    rw [foldr_orderedInsert_pull b u _ fun x hx => h x hx b (List.mem_cons_self b v),
      ih u S fun x hx y hy => h x hx y (List.mem_cons_of_mem b hy)]

theorem sortByPage_cons (a : IndexEntry) (l : List IndexEntry) :
    sortByPage (a :: l) = List.orderedInsert pageLe a (sortByPage l) := rfl

theorem sortByPage_append (u A : List IndexEntry) :
    sortByPage (u ++ A) = List.foldr (List.orderedInsert pageLe) (sortByPage A) u := by
  induction u with
  | nil => rfl
  | cons a u ih => rw [List.cons_append, sortByPage_cons, ih, List.foldr_cons]

/-- Entries of distinct chunks carry distinct page numbers. -/
def crossNe (u v : List IndexEntry) : Prop :=
  ∀ x ∈ u, ∀ y ∈ v, x.pageNumber ≠ y.pageNumber

theorem crossNe_symm {u v : List IndexEntry} (h : crossNe u v) : crossNe v u :=
  fun x hx y hy => (h y hy x hx).symm

theorem sortByPage_flatten_perm :
    ∀ {cs' cs : List (List IndexEntry)}, cs'.Perm cs → cs.Pairwise crossNe →
      sortByPage cs'.flatten = sortByPage cs.flatten := by
  intro cs' cs h
  induction h with
  | nil => intro _; rfl
  | cons z _ ih =>
    intro H
    simp only [List.flatten_cons]
    rw [sortByPage_append, sortByPage_append, ih (List.pairwise_cons.mp H).2]
  | swap x y l =>
    intro H
    have hxy : crossNe x y := (List.pairwise_cons.mp H).1 y (List.mem_cons_self y l)
    simp only [List.flatten_cons, ← List.append_assoc]
    rw [List.append_assoc y x, List.append_assoc x y, sortByPage_append,
      sortByPage_append, sortByPage_append, sortByPage_append]
    exact foldr_orderedInsert_swap x y (sortByPage l.flatten) (crossNe_symm hxy)
  | trans _ h₂ ih₁ ih₂ =>
    intro H
    rw [ih₁ ((h₂.pairwise_iff fun hab => crossNe_symm hab).mpr H), ih₂ H]

theorem buildChunks_page_lb :
    ∀ (texts : List (List Char)) (k : Nat) (c : List IndexEntry),
      c ∈ buildChunks texts k → ∀ e ∈ c, k + 1 ≤ e.pageNumber := by
  intro texts
  induction texts with
  | nil => intro k c hc; simp [buildChunks] at hc
  | cons t texts ih =>
    intro k c hc e he
    rcases List.mem_cons.mp hc with rfl | h
    · exact Nat.le_of_eq (extract_sentences_page he).symm
    · exact Nat.le_of_succ_le (ih (k + 1) c h e he)

theorem buildChunks_pairwise :
    ∀ (texts : List (List Char)) (k : Nat), (buildChunks texts k).Pairwise crossNe := by
  intro texts
  induction texts with
  | nil => intro k; exact List.Pairwise.nil
  | cons t texts ih =>
    intro k
    refine List.pairwise_cons.mpr ⟨fun c' hc' x hx y hy => ?_, ih (k + 1)⟩
    have hx1 : x.pageNumber = k + 1 := extract_sentences_page hx
    have hy2 : k + 2 ≤ y.pageNumber := buildChunks_page_lb texts (k + 1) c' hc' y hy
    omega

/-- C1: determinism of the build.  Whatever order `as_completed` delivers the
per-page chunks in — any permutation of the chunk list produced by the
submission loop, the 1-worker submission order included — the final sorted
index is the same. -/
theorem preprocess_pdf_deterministic (pages : List (List Char))
    (c₁ c₂ : List (List IndexEntry))
    (h₁ : c₁.Perm (buildChunks pages 0)) (h₂ : c₂.Perm (buildChunks pages 0)) :
    preprocess_pdf (c₁.map Except.ok) = preprocess_pdf (c₂.map Except.ok) := by
  rw [preprocess_pdf_ok, preprocess_pdf_ok,
    sortByPage_flatten_perm h₁ (buildChunks_pairwise pages 0),
    sortByPage_flatten_perm h₂ (buildChunks_pairwise pages 0)]

/-- C1 witness: a two-page document whose chunks are collected in submission
order versus reversed completion order. -/
theorem preprocess_pdf_deterministic_witness :
    preprocess_pdf ([[⟨1, ['a', '.']⟩, ⟨1, ['b']⟩], [⟨2, ['c']⟩]].map Except.ok)
      = preprocess_pdf ([[⟨2, ['c']⟩], [⟨1, ['a', '.']⟩, ⟨1, ['b']⟩]].map Except.ok) :=
  preprocess_pdf_deterministic [['a', '.', ' ', 'b'], ['c']] _ _ (by decide) (by decide)

/-- One element of the `all_data` list built by `search_keywords_in_index`:
`{'Keyword': keyword, 'Page Number': ..., 'Sentence': bold_keyword_in_sentence}`. -/
structure SearchResult where
  keyword : List Char
  pageNumber : Nat
  sentence : List Char
deriving DecidableEq

/-- Whether `n` equals the first `n.length` characters of `h` (character
equality). -/
def leadsWith : List Char → List Char → Bool
  | [], _ => true
  | _ :: _, [] => false
  | a :: u, b :: v => a == b && leadsWith u v

/-- Python's substring containment `n in h`: `n` occurs contiguously in `h`.
The empty string is contained in every string. -/
def strContains (n : List Char) : List Char → Bool
  | [] => n.isEmpty
  | c :: t => leadsWith n (c :: t) || strContains n t

/-- The test `keyword.lower() in entry['Sentence'].lower()` (ASCII case
folding). -/
def matchCond (keyword : List Char) (e : IndexEntry) : Bool :=
  strContains (keyword.map Char.toLower) (e.sentence.map Char.toLower)

/-- Case-insensitive prefix test: the literal pattern of
`re.sub(f"(?i)({re.escape(keyword)})", ...)` matches at the head of `s`. -/
def ciStarts : List Char → List Char → Bool
  | [], _ => true
  | _ :: _, [] => false
  | a :: u, b :: v => (a.toLower == b.toLower) && ciStarts u v

/-- The bold tag inserted in front of each match by the `re.sub` replacement
`r"<b>\1</b>"`. -/
def tagOpen : List Char := ['<', 'b', '>']

/-- The closing bold tag of the replacement. -/
def tagClose : List Char := ['<', '/', 'b', '>']

/-- The `re.sub` scan for a non-empty literal pattern: find the leftmost
case-insensitive occurrence, wrap the matched original characters in
`<b>...</b>`, continue after the match; characters before a match are copied
unchanged. -/
def hlGo (kw : List Char) : List Char → List Char
  | [] => []
  | c :: t =>
    if ciStarts kw (c :: t) && !kw.isEmpty then
      tagOpen ++ (c :: t).take kw.length ++ tagClose ++ hlGo kw (t.drop (kw.length - 1))
    else
      c :: hlGo kw t
termination_by s => s.length
decreasing_by
  · simp only [List.length_drop, List.length_cons]; omega
  · simp only [List.length_cons]; omega

/-- `re.sub` with an empty pattern (empty keyword): the pattern matches the
empty string at every position, so a `<b></b>` pair is inserted before every
character and once at the end. -/
def emptyHl : List Char → List Char
  | [] => tagOpen ++ tagClose
  | c :: t => tagOpen ++ tagClose ++ (c :: emptyHl t)

/-- `bold_keyword_in_sentence`: the full
`re.sub(f"(?i)({re.escape(keyword)})", r"<b>\1</b>", sentence)`. -/
def highlight (keyword sentence : List Char) : List Char :=
  if keyword.isEmpty then emptyHl sentence else hlGo keyword sentence

/-- `search_keywords_in_index(index, keywords)`: the nested
entry-major/keyword-minor loop appending one record per match. -/
def search_keywords_in_index (index : List IndexEntry) (keywords : List (List Char)) :
    List SearchResult :=
  (index.map fun entry =>
    keywords.filterMap fun keyword =>
      if matchCond keyword entry then
        some ⟨keyword, entry.pageNumber, highlight keyword entry.sentence⟩
      else
        none).flatten

/-- `search_keywords_in_pdf(pdf_file, keywords)`: when the document path does
not exist the function prints and returns `[], 0.0`; otherwise it searches
the loaded index and returns the results with the measured wall-clock
duration, which enters the model as the parameter `elapsed`. -/
def search_keywords_in_pdf (fileExists : Bool) (index : List IndexEntry)
    (keywords : List (List Char)) (elapsed : ℚ) : List SearchResult × ℚ :=
  if fileExists then (search_keywords_in_index index keywords, elapsed) else ([], 0)

theorem strContains_nil : ∀ h : List Char, strContains [] h = true := by
  intro h
  cases h with
  | nil => rfl
  | cons c t => simp [strContains, leadsWith]

/-- C2 counterexample: on a one-entry index, the empty keyword produces one
`SearchResult` (Python's `'' in s` is `True` for every `s`), not zero. -/
theorem search_empty_keyword_counterexample :
    search_keywords_in_index [⟨1, ['a', 'b']⟩] [[]] ≠ [] := by
  decide

/-- C2 amended: the empty-string keyword matches every entry — the search
yields exactly one result per index entry, whose sentence is the entry's
sentence with a `<b></b>` pair inserted at every position; no error occurs. -/
theorem search_empty_keyword (index : List IndexEntry) :
    search_keywords_in_index index [[]]
        = index.map (fun e => ⟨[], e.pageNumber, highlight [] e.sentence⟩) ∧
      (search_keywords_in_index index [[]]).length = index.length := by
  have hmap : search_keywords_in_index index [[]]
      = index.map (fun e => ⟨[], e.pageNumber, highlight [] e.sentence⟩) := by
    induction index with
    | nil => rfl
    | cons e index ih =>
      simp only [search_keywords_in_index, List.map_cons, List.flatten_cons] at ih ⊢
      rw [ih]
      simp [matchCond, strContains_nil]
  exact ⟨hmap, by rw [hmap, List.length_map]⟩

/-- C5: the result list is exactly the entry-major, keyword-minor sequence of
matching (entry, keyword) pairs — one `SearchResult` per matching pair, and
the count is the number of matching pairs. -/
theorem search_keywords_in_index_product (index : List IndexEntry) (keywords : List (List Char)) :
    search_keywords_in_index index keywords
        = ((List.product index keywords).filter fun p => matchCond p.2 p.1).map
            (fun p => ⟨p.2, p.1.pageNumber, highlight p.2 p.1.sentence⟩) ∧
      (search_keywords_in_index index keywords).length
        = (List.product index keywords).countP (fun p => matchCond p.2 p.1) := by
  have key : ∀ (e : IndexEntry) (kws : List (List Char)),
      (kws.filterMap fun keyword =>
        if matchCond keyword e then
          some (⟨keyword, e.pageNumber, highlight keyword e.sentence⟩ : SearchResult)
        else none)
        = ((kws.map (Prod.mk e)).filter fun p => matchCond p.2 p.1).map
            (fun p => ⟨p.2, p.1.pageNumber, highlight p.2 p.1.sentence⟩) := by
    intro e kws
    induction kws with
    | nil => rfl
    | cons k kws ih =>
      by_cases hc : matchCond k e
      · simp [List.filterMap_cons, hc, ih]
      · simp [List.filterMap_cons, hc, ih]
  have hmain : search_keywords_in_index index keywords
      = ((List.product index keywords).filter fun p => matchCond p.2 p.1).map
          (fun p => ⟨p.2, p.1.pageNumber, highlight p.2 p.1.sentence⟩) := by
    induction index with
    | nil => rfl
    | cons e index ih =>
      simp only [search_keywords_in_index, List.map_cons, List.flatten_cons] at ih ⊢
      rw [key e keywords, ih]
      simp [List.product, List.flatMap_cons, List.filter_append, List.map_append]
  exact ⟨hmain, by
    rw [hmain, List.length_map]
    exact (List.countP_eq_length_filter _ _).symm⟩

/-- C9 counterexample: a search against a missing document path and a
legitimate search that found zero matches return the very same value
`([], 0.0)` — there is no distinguishable error or status in the returned
data. -/
theorem search_missing_file_counterexample :
    search_keywords_in_pdf false [⟨1, ['l', 'a', 'w']⟩] [['l', 'a', 'w']] 5 = ([], 0) ∧
      search_keywords_in_pdf true [] [['l', 'a', 'w']] 0 = ([], 0) := by
  exact ⟨rfl, rfl⟩

/-- C9 amended: when the document path does not exist,
`search_keywords_in_pdf` returns the empty result list paired with the
duration `0.0` and nothing else — the same shape a zero-match search
produces, so the caller cannot distinguish the two from the returned value. -/
theorem search_missing_file (index : List IndexEntry) (keywords : List (List Char))
    (elapsed : ℚ) :
    search_keywords_in_pdf false index keywords elapsed = ([], 0) := rfl

/-- Block decomposition of the `re.sub` scan for a non-empty pattern: `true`
blocks are the wrapped occurrences (the original matched characters), `false`
blocks are single copied characters. -/
def decomp (kw : List Char) : List Char → List (Bool × List Char)
  | [] => []
  | c :: t =>
    if ciStarts kw (c :: t) && !kw.isEmpty then
      (true, (c :: t).take kw.length) :: decomp kw (t.drop (kw.length - 1))
    else
      (false, [c]) :: decomp kw t
termination_by s => s.length
decreasing_by
  · simp only [List.length_drop, List.length_cons]; omega
  · simp only [List.length_cons]; omega

/-- Block decomposition of the empty-pattern `re.sub` scan: an empty `true`
block (an inserted `<b></b>` pair) before every character and at the end. -/
def emptyDecomp : List Char → List (Bool × List Char)
  | [] => [(true, [])]
  | c :: t => (true, []) :: (false, [c]) :: emptyDecomp t

/-- Block decomposition of the full `highlight`. -/
def hlDecomp (kw s : List Char) : List (Bool × List Char) :=
  if kw.isEmpty then emptyDecomp s else decomp kw s

/-- The original characters of a block decomposition — what remains when the
inserted `<b>`/`</b>` markers are removed. -/
def rawJoin (bs : List (Bool × List Char)) : List Char :=
  (bs.map Prod.snd).flatten

/-- The rendered characters of a block decomposition: `true` blocks wrapped
in the inserted markers. -/
def renderJoin (bs : List (Bool × List Char)) : List Char :=
  (bs.map fun b => if b.1 then tagOpen ++ b.2 ++ tagClose else b.2).flatten

/-- Count of the non-overlapping, left-to-right case-insensitive occurrences
of `kw` in a text (the greedy leftmost scan). -/
def occCount (kw : List Char) : List Char → Nat
  | [] => 0
  | c :: t =>
    if ciStarts kw (c :: t) && !kw.isEmpty then
      1 + occCount kw (t.drop (kw.length - 1))
    else
      occCount kw t
termination_by s => s.length
decreasing_by
  · simp only [List.length_drop, List.length_cons]; omega
  · simp only [List.length_cons]; omega

theorem ciStarts_length : ∀ kw s : List Char, ciStarts kw s = true → kw.length ≤ s.length
  | [], _ => fun _ => Nat.zero_le _
  | _ :: _, [] => fun h => by simp [ciStarts] at h
  | a :: u, b :: v => fun h => by
    simp only [ciStarts, Bool.and_eq_true] at h
    have := ciStarts_length u v h.2
    simp only [List.length_cons]
    omega

theorem ciStarts_take : ∀ kw s : List Char, ciStarts kw s = true →
    ciStarts kw (s.take kw.length) = true
  | [], _ => fun _ => rfl
  | _ :: _, [] => fun h => by simp [ciStarts] at h
  | a :: u, b :: v => fun h => by
    simp only [ciStarts, Bool.and_eq_true] at h
    simp only [List.length_cons, List.take_succ_cons, ciStarts, Bool.and_eq_true]
    exact ⟨h.1, ciStarts_take u v h.2⟩

theorem take_drop_chunk (kw : List Char) (hk : kw ≠ []) (c : Char) (t : List Char) :
    (c :: t).take kw.length ++ t.drop (kw.length - 1) = c :: t := by
  obtain ⟨k, ks, rfl⟩ := List.exists_cons_of_ne_nil hk
  simp only [List.length_cons, List.take_succ_cons, Nat.succ_sub_one, List.cons_append]
  rw [List.take_append_drop]

theorem guard_ne_nil {kw : List Char} {c : Char} {t : List Char}
    (h : (ciStarts kw (c :: t) && !kw.isEmpty) = true) : kw ≠ [] := by
  simp only [Bool.and_eq_true] at h
  cases kw with
  | nil => simp at h
  | cons k ks => exact List.cons_ne_nil k ks

theorem decomp_raw (kw : List Char) : ∀ s, rawJoin (decomp kw s) = s := by
  intro s
  induction s using decomp.induct kw with
  | case1 => rw [decomp]; rfl
  | case2 c t h ih =>
    rw [decomp, if_pos h]
    simp only [rawJoin, List.map_cons, List.flatten_cons] at ih ⊢
    rw [ih, take_drop_chunk kw (guard_ne_nil h) c t]
  | case3 c t h ih =>
    rw [decomp, if_neg h]
    simp only [rawJoin, List.map_cons, List.flatten_cons] at ih ⊢
    rw [ih]
    rfl

theorem decomp_render (kw : List Char) : ∀ s, renderJoin (decomp kw s) = hlGo kw s := by
  intro s
  induction s using decomp.induct kw with
  | case1 => rw [decomp, hlGo]; rfl
  | case2 c t h ih =>
    rw [decomp, if_pos h, hlGo, if_pos h]
    simp only [renderJoin, List.map_cons, List.flatten_cons] at ih ⊢
    rw [ih]
    simp [List.append_assoc]
  | case3 c t h ih =>
    rw [decomp, if_neg h, hlGo, if_neg h]
    simp only [renderJoin, List.map_cons, List.flatten_cons] at ih ⊢
    rw [ih]
    rfl

theorem decomp_count (kw : List Char) :
    ∀ s, (decomp kw s).countP Prod.fst = occCount kw s := by
  intro s
  induction s using decomp.induct kw with
  | case1 => rw [decomp, occCount]; rfl
  | case2 c t h ih =>
    rw [decomp, if_pos h, occCount, if_pos h]
    simp only [List.countP_cons] at ih ⊢
    simp [ih]
    omega
  | case3 c t h ih =>
    rw [decomp, if_neg h, occCount, if_neg h]
    simp only [List.countP_cons] at ih ⊢
    simp [ih]

theorem decomp_blocks (kw : List Char) :
    ∀ s, ∀ b ∈ decomp kw s, b.1 = true →
      b.2.length = kw.length ∧ ciStarts kw b.2 = true := by
  intro s
  induction s using decomp.induct kw with
  | case1 => intro b hb; simp [decomp] at hb
  | case2 c t h ih =>
    intro b hb hb1
    rw [decomp, if_pos h] at hb
    rcases List.mem_cons.mp hb with rfl | hbrest
    · have h1 := ((Bool.and_eq_true _ _).mp h).1
      have hlen : kw.length ≤ (c :: t).length := ciStarts_length kw (c :: t) h1
      refine ⟨?_, ciStarts_take kw (c :: t) h1⟩
      simp only [List.length_take]
      omega
    · exact ih b hbrest hb1
  | case3 c t h ih =>
    intro b hb hb1
    rw [decomp, if_neg h] at hb
    rcases List.mem_cons.mp hb with rfl | hbrest
    · simp at hb1
    · exact ih b hbrest hb1

theorem emptyDecomp_raw : ∀ s, rawJoin (emptyDecomp s) = s := by
  intro s
  induction s with
  | nil => rfl
  | cons c t ih =>
    simp only [emptyDecomp, rawJoin, List.map_cons, List.flatten_cons] at ih ⊢
    rw [ih]
    rfl

theorem emptyDecomp_render : ∀ s, renderJoin (emptyDecomp s) = emptyHl s := by
  intro s
  induction s with
  | nil => rfl
  | cons c t ih =>
    simp only [emptyDecomp, emptyHl, renderJoin, List.map_cons, List.flatten_cons] at ih ⊢
    rw [ih]
    rfl

theorem hlDecomp_raw (kw s : List Char) : rawJoin (hlDecomp kw s) = s := by
  unfold hlDecomp
  by_cases h : kw.isEmpty
  · rw [if_pos h]; exact emptyDecomp_raw s
  · rw [if_neg h]; exact decomp_raw kw s

theorem hlDecomp_render (kw s : List Char) : renderJoin (hlDecomp kw s) = highlight kw s := by
  unfold hlDecomp highlight
  by_cases h : kw.isEmpty
  · rw [if_pos h, if_pos h]; exact emptyDecomp_render s
  · rw [if_neg h, if_neg h]; exact decomp_render kw s

/-- C7: every `SearchResult` comes from an index entry, and its sentence is
that entry's original sentence with `<b>`/`</b>` markers inserted around the
matched blocks: removing the inserted markers (`renderJoin` back to
`rawJoin`) reproduces the entry's sentence exactly, original casing
included. -/
theorem search_highlight_strips (index : List IndexEntry) (keywords : List (List Char))
    (r : SearchResult) (hr : r ∈ search_keywords_in_index index keywords) :
    ∃ e, e ∈ index ∧ r.pageNumber = e.pageNumber ∧
      rawJoin (hlDecomp r.keyword e.sentence) = e.sentence ∧
      renderJoin (hlDecomp r.keyword e.sentence) = r.sentence := by
  simp only [search_keywords_in_index, List.mem_flatten, List.mem_map] at hr
  obtain ⟨l, ⟨e, he, hfe⟩, hrl⟩ := hr
  subst hfe
  obtain ⟨k, hk, hik⟩ := List.mem_filterMap.mp hrl
  by_cases hc : matchCond k e
  · rw [if_pos hc] at hik
    obtain rfl : (⟨k, e.pageNumber, highlight k e.sentence⟩ : SearchResult) = r :=
      Option.some.inj hik
    exact ⟨e, he, rfl, hlDecomp_raw k e.sentence, hlDecomp_render k e.sentence⟩
  · rw [if_neg hc] at hik
    exact absurd hik (by simp)

/-- C7 witness: the single-entry index `["law"]` searched for keyword `"l"`. -/
theorem search_highlight_strips_witness :
    ∃ e, e ∈ [(⟨1, ['l', 'a', 'w']⟩ : IndexEntry)] ∧
      (⟨['l'], 1, highlight ['l'] ['l', 'a', 'w']⟩ : SearchResult).pageNumber = e.pageNumber ∧
      rawJoin (hlDecomp (⟨['l'], 1, highlight ['l'] ['l', 'a', 'w']⟩ : SearchResult).keyword
        e.sentence) = e.sentence ∧
      renderJoin (hlDecomp (⟨['l'], 1, highlight ['l'] ['l', 'a', 'w']⟩ : SearchResult).keyword
        e.sentence) = (⟨['l'], 1, highlight ['l'] ['l', 'a', 'w']⟩ : SearchResult).sentence :=
  search_highlight_strips [⟨1, ['l', 'a', 'w']⟩] [['l']]
    ⟨['l'], 1, highlight ['l'] ['l', 'a', 'w']⟩
    (by
      have hs : search_keywords_in_index [⟨1, ['l', 'a', 'w']⟩] [['l']]
          = [⟨['l'], 1, highlight ['l'] ['l', 'a', 'w']⟩] := rfl
      rw [hs]
      exact List.mem_singleton.mpr rfl)

/-- C10: for a non-empty keyword, `highlight` decomposes the sentence into
blocks whose originals concatenate back to the sentence, renders each
occurrence block wrapped independently in its own `<b>...</b>` pair, the
number of wrapped blocks equals the count of non-overlapping left-to-right
case-insensitive occurrences, and every wrapped block is a literal
case-insensitive copy of the keyword. -/
theorem highlight_wraps_occurrences (kw s : List Char) (hkw : kw ≠ []) :
    rawJoin (decomp kw s) = s ∧
      renderJoin (decomp kw s) = highlight kw s ∧
      (decomp kw s).countP Prod.fst = occCount kw s ∧
      ∀ b ∈ decomp kw s, b.1 = true → b.2.length = kw.length ∧ ciStarts kw b.2 = true := by
  have hne : kw.isEmpty = false := by
    cases kw with
    | nil => exact absurd rfl hkw
    | cons k ks => rfl
  refine ⟨decomp_raw kw s, ?_, decomp_count kw s, decomp_blocks kw s⟩
  rw [decomp_render kw s, highlight, hne]
  simp

/-- C10 witness: keyword `"a"` against the sentence `"bAa"`. -/
theorem highlight_wraps_occurrences_witness :
    (['a'] : List Char) ≠ [] ∧
      (rawJoin (decomp ['a'] ['b', 'A', 'a']) = ['b', 'A', 'a'] ∧
        renderJoin (decomp ['a'] ['b', 'A', 'a']) = highlight ['a'] ['b', 'A', 'a'] ∧
        (decomp ['a'] ['b', 'A', 'a']).countP Prod.fst = occCount ['a'] ['b', 'A', 'a'] ∧
        ∀ b ∈ decomp ['a'] ['b', 'A', 'a'], b.1 = true →
          b.2.length = (['a'] : List Char).length ∧ ciStarts ['a'] b.2 = true) :=
  ⟨by decide, highlight_wraps_occurrences ['a'] ['b', 'A', 'a'] (by decide)⟩

/-- The character of a decimal digit. -/
def digitChar (d : Nat) : Char := Char.ofNat (48 + d)

/-- Python's decimal rendering of a non-negative int, as `json.dump` writes
the `Page Number` field. -/
def natToChars (n : Nat) : List Char :=
  if _h : n < 10 then [digitChar n]
  else natToChars (n / 10) ++ [digitChar (n % 10)]
termination_by n
decreasing_by omega

/-- Greedily take the leading run of decimal digit characters. -/
def takeDigits : List Char → List Char × List Char
  | [] => ([], [])
  | c :: t =>
    if c.isDigit then (c :: (takeDigits t).1, (takeDigits t).2)
    else ([], c :: t)

/-- Value of a digit run, most significant first. -/
def digitsVal (ds : List Char) : Nat :=
  ds.foldl (fun a c => 10 * a + (c.toNat - 48)) 0

/-- Parse a decimal integer: `json.load` on a number token. -/
def parseNat (s : List Char) : Option (Nat × List Char) :=
  if (takeDigits s).1.isEmpty then none
  else some (digitsVal (takeDigits s).1, (takeDigits s).2)

/-- Lowercase hex digit, as CPython's `json` encoder emits in `\uXXXX`. -/
def hexDigit (d : Nat) : Char :=
  if d < 10 then Char.ofNat (48 + d) else Char.ofNat (87 + d)

/-- Value of one hex digit character (either case accepted, as `json.load`
does). -/
def hexVal (c : Char) : Option Nat :=
  if 48 ≤ c.toNat ∧ c.toNat ≤ 57 then some (c.toNat - 48)
  else if 97 ≤ c.toNat ∧ c.toNat ≤ 102 then some (c.toNat - 87)
  else if 65 ≤ c.toNat ∧ c.toNat ≤ 70 then some (c.toNat - 55)
  else none

/-- Four-digit hex rendering of a code unit. -/
def hex4 (n : Nat) : List Char :=
  [hexDigit (n / 4096 % 16), hexDigit (n / 256 % 16), hexDigit (n / 16 % 16), hexDigit (n % 16)]

/-- The `ensure_ascii` string escaping of CPython `json.dump`: `\"`, `\\`,
the short control escapes, `\uXXXX` for the remaining control characters and
all code points above `~` (`0x7E`), astral code points as a surrogate pair. -/
def escChar (c : Char) : List Char :=
  if c = '\"' then ['\\', '\"']
  else if c = '\\' then ['\\', '\\']
  else if c = '\n' then ['\\', 'n']
  else if c = '\x0d' then ['\\', 'r']
  else if c = '\t' then ['\\', 't']
  else if c.toNat = 8 then ['\\', 'b']
  else if c.toNat = 12 then ['\\', 'f']
  else if c.toNat < 32 then '\\' :: 'u' :: hex4 c.toNat
  else if c.toNat < 127 then [c]
  else if c.toNat < 65536 then '\\' :: 'u' :: hex4 c.toNat
  else '\\' :: 'u' :: hex4 (55296 + (c.toNat - 65536) / 1024)
    ++ '\\' :: 'u' :: hex4 (56320 + (c.toNat - 65536) % 1024)

/-- The encoder's rendering of a string body (without the surrounding
quotes). -/
def encStr (s : List Char) : List Char :=
  (s.map escChar).flatten

/-- The single-character JSON string escapes accepted by `json.load`. -/
def decodeEsc (e : Char) : Option Char :=
  if e = '\"' then some '\"'
  else if e = '\\' then some '\\'
  else if e = '/' then some '/'
  else if e = 'n' then some '\n'
  else if e = 'r' then some '\x0d'
  else if e = 't' then some '\t'
  else if e = 'b' then some (Char.ofNat 8)
  else if e = 'f' then some (Char.ofNat 12)
  else none

/-- `json.load` on a quoted string body: read characters and escapes until
the closing quote, combining surrogate pairs; a lone surrogate is rejected
(it has no scalar value).  `fuel` only bounds the recursion and is taken as
the input length by the wrapper. -/
def parseStrF : Nat → List Char → Option (List Char × List Char)
  | 0, _ => none
  | _ + 1, [] => none
  | fuel + 1, c :: t =>
    if c = '\"' then some ([], t)
    else if c = '\\' then
      match t with
      | [] => none
      | e :: t2 =>
        if e = 'u' then
          match t2 with
          | h1 :: h2 :: h3 :: h4 :: t3 =>
            match hexVal h1, hexVal h2, hexVal h3, hexVal h4 with
            | some a, some b, some c2, some d =>
              if 55296 ≤ ((a * 16 + b) * 16 + c2) * 16 + d
                  ∧ ((a * 16 + b) * 16 + c2) * 16 + d < 56320 then
                match t3 with
                | b1 :: b2 :: g1 :: g2 :: g3 :: g4 :: t4 =>
                  if b1 = '\\' then
                    if b2 = 'u' then
                      match hexVal g1, hexVal g2, hexVal g3, hexVal g4 with
                      | some a2, some b2v, some c3, some d2 =>
                        if 56320 ≤ ((a2 * 16 + b2v) * 16 + c3) * 16 + d2
                            ∧ ((a2 * 16 + b2v) * 16 + c3) * 16 + d2 < 57344 then
                          (parseStrF fuel t4).map fun p =>
                            (Char.ofNat (65536
                              + (((a * 16 + b) * 16 + c2) * 16 + d - 55296) * 1024
                              + (((a2 * 16 + b2v) * 16 + c3) * 16 + d2 - 56320)) :: p.1, p.2)
                        else none
                      | _, _, _, _ => none
                    else none
                  else none
                | _ => none
              else if 56320 ≤ ((a * 16 + b) * 16 + c2) * 16 + d
                  ∧ ((a * 16 + b) * 16 + c2) * 16 + d < 57344 then none
              else (parseStrF fuel t3).map fun p =>
                (Char.ofNat (((a * 16 + b) * 16 + c2) * 16 + d) :: p.1, p.2)
            | _, _, _, _ => none
          | _ => none
        else
          match decodeEsc e with
          | some ch => (parseStrF fuel t2).map fun p => (ch :: p.1, p.2)
          | none => none
    else (parseStrF fuel t).map fun p => (c :: p.1, p.2)

/-- `json.load` on a string body, with the recursion bounded by the input
length (every step consumes at least one character). -/
def parseStr (s : List Char) : Option (List Char × List Char) :=
  parseStrF s.length s

/-- Expect the literal `lit` at the head of `s` and return the remainder. -/
def dropLit : List Char → List Char → Option (List Char)
  | [], s => some s
  | _ :: _, [] => none
  | a :: u, b :: v => if a = b then dropLit u v else none

/-- The literal `{"Page Number": ` opening every encoded entry
(`json.dump` keeps the dict's insertion order and writes `": "` after the
key and `", "` between members). -/
def objKey1 : List Char :=
  ['\x7b', '\"', 'P', 'a', 'g', 'e', ' ', 'N', 'u', 'm', 'b', 'e', 'r', '\"', ':', ' ']

/-- The literal `, "Sentence": "` between the two members of an entry. -/
def objKey2 : List Char :=
  [',', ' ', '\"', 'S', 'e', 'n', 't', 'e', 'n', 'c', 'e', '\"', ':', ' ', '\"']

/-- The encoder's rendering of one `{"Page Number": N, "Sentence": "..."}`
object. -/
def encEntry (e : IndexEntry) : List Char :=
  objKey1 ++ natToChars e.pageNumber ++ objKey2 ++ encStr e.sentence ++ ['\"', '\x7d']

/-- `", ".join`-style separator placement of the encoder. -/
def joinSep : List (List Char) → List Char
  | [] => []
  | [x] => x
  | x :: y :: t => x ++ [',', ' '] ++ joinSep (y :: t)

/-- `save_index_to_file(index, filename)`: the character contents that
`json.dump(index, file)` writes. -/
def save_index_to_file (index : List IndexEntry) : List Char :=
  '[' :: joinSep (index.map encEntry) ++ [']']

/-- `json.load` on one entry object of the persisted layout. -/
def parseEntry (s : List Char) : Option (IndexEntry × List Char) :=
  match dropLit objKey1 s with
  | none => none
  | some s1 =>
    match parseNat s1 with
    | none => none
    | some (n, s2) =>
      match dropLit objKey2 s2 with
      | none => none
      | some s3 =>
        match parseStr s3 with
        | none => none
        | some (sent, s4) =>
          match s4 with
          | [] => none
          | c :: s5 => if c = '\x7d' then some (⟨n, sent⟩, s5) else none

/-- `json.load` on the comma-separated entry objects up to the closing `]`. -/
def parseItems : Nat → List Char → Option (List IndexEntry × List Char)
  | 0, _ => none
  | fuel + 1, s =>
    match parseEntry s with
    | none => none
    | some (e, r) =>
      match r with
      | [] => none
      | c :: r2 =>
        if c = ']' then some ([e], r2)
        else if c = ',' then
          match r2 with
          | [] => none
          | c2 :: r3 =>
            if c2 = ' ' then
              match parseItems fuel r3 with
              | none => none
              | some (es, r4) => some (e :: es, r4)
            else none
        else none

/-- `load_index_from_file(filename)`: `json.load` of the persisted index
layout, demanding the whole file be consumed. -/
def load_index_from_file (s : List Char) : Option (List IndexEntry) :=
  match s with
  | [] => none
  | c :: rest =>
    if c = '[' then
      if rest = [']'] then some []
      else
        match parseItems rest.length rest with
        | none => none
        | some (es, r) => if r.isEmpty then some es else none
    else none

theorem digitChar_isDigit {d : Nat} (h : d < 10) : (digitChar d).isDigit = true := by
  interval_cases d <;> decide

theorem digitChar_toNat {d : Nat} (h : d < 10) : (digitChar d).toNat = 48 + d := by
  interval_cases d <;> decide

theorem natToChars_ne_nil (n : Nat) : natToChars n ≠ [] := by
  rw [natToChars]
  split
  · exact List.cons_ne_nil _ _
  · simp

theorem natToChars_digits : ∀ n, ∀ c ∈ natToChars n, c.isDigit = true := by
  intro n
  induction n using natToChars.induct with
  | case1 n h =>
    intro c hc
    rw [natToChars, dif_pos h] at hc
    simp only [List.mem_singleton] at hc
    subst hc
    exact digitChar_isDigit h
  | case2 n h ih =>
    intro c hc
    rw [natToChars, dif_neg h] at hc
    rcases List.mem_append.mp hc with h1 | h2
    · exact ih c h1
    · simp only [List.mem_singleton] at h2
      subst h2
      exact digitChar_isDigit (Nat.mod_lt n (by norm_num))

theorem digitsVal_append_single (u : List Char) (c : Char) :
    digitsVal (u ++ [c]) = 10 * digitsVal u + (c.toNat - 48) := by
  simp [digitsVal, List.foldl_append]

theorem digitsVal_natToChars : ∀ n, digitsVal (natToChars n) = n := by
  intro n
  induction n using natToChars.induct with
  | case1 n h =>
    rw [natToChars, dif_pos h]
    have := digitChar_toNat h
    simp [digitsVal]
    omega
  | case2 n h ih =>
    rw [natToChars, dif_neg h, digitsVal_append_single, ih,
      digitChar_toNat (Nat.mod_lt n (by norm_num))]
    omega

theorem takeDigits_append (ds r : List Char) (hds : ∀ c ∈ ds, c.isDigit = true)
    (hr : ∀ c, r.head? = some c → c.isDigit = false) :
    takeDigits (ds ++ r) = (ds, r) := by
  induction ds with
  | nil =>
    simp only [List.nil_append]
    cases r with
    | nil => rfl
    | cons c t =>
      have := hr c rfl
      simp [takeDigits, this]
  | cons d ds ih =>
    have hd := hds d (List.mem_cons_self d ds)
    have ihh := ih fun c hc => hds c (List.mem_cons_of_mem d hc)
    simp [takeDigits, hd, ihh]

theorem parseNat_append (n : Nat) (r : List Char)
    (hr : ∀ c, r.head? = some c → c.isDigit = false) :
    parseNat (natToChars n ++ r) = some (n, r) := by
  have ht := takeDigits_append (natToChars n) r (natToChars_digits n) hr
  have hne : (natToChars n).isEmpty = false := by
    cases hE : natToChars n with
    | nil => exact absurd hE (natToChars_ne_nil n)
    | cons a l => rfl
  simp [parseNat, ht, hne, digitsVal_natToChars]

theorem hexVal_hexDigit {d : Nat} (h : d < 16) : hexVal (hexDigit d) = some d := by
  interval_cases d <;> decide

theorem parseStrF_u (f : Nat) (v : Nat) (hv : v < 55296 ∨ (57343 < v ∧ v < 65536))
    (E : List Char) :
    parseStrF (f + 1) ('\\' :: 'u' :: (hex4 v ++ E))
      = (parseStrF f E).map fun p => (Char.ofNat v :: p.1, p.2) := by
  have m1 : v / 4096 % 16 < 16 := Nat.mod_lt _ (by norm_num)
  have m2 : v / 256 % 16 < 16 := Nat.mod_lt _ (by norm_num)
  have m3 : v / 16 % 16 < 16 := Nat.mod_lt _ (by norm_num)
  have m4 : v % 16 < 16 := Nat.mod_lt _ (by norm_num)
  have e1 : ((v / 4096 % 16 * 16 + v / 256 % 16) * 16 + v / 16 % 16) * 16 + v % 16 = v := by
    omega
  simp +decide only [hex4, List.cons_append, List.nil_append, List.append_eq, parseStrF,
    if_true, if_false, hexVal_hexDigit m1, hexVal_hexDigit m2, hexVal_hexDigit m3,
    hexVal_hexDigit m4, e1]
  rw [if_neg (by omega), if_neg (by omega)]

theorem parseStrF_u2 (f : Nat) (v w : Nat) (hv : 55296 ≤ v ∧ v < 56320)
    (hw : 56320 ≤ w ∧ w < 57344) (E : List Char) :
    parseStrF (f + 1) ('\\' :: 'u' :: (hex4 v ++ ('\\' :: 'u' :: (hex4 w ++ E))))
      = (parseStrF f E).map fun p =>
          (Char.ofNat (65536 + (v - 55296) * 1024 + (w - 56320)) :: p.1, p.2) := by
  have m1 : v / 4096 % 16 < 16 := Nat.mod_lt _ (by norm_num)
  have m2 : v / 256 % 16 < 16 := Nat.mod_lt _ (by norm_num)
  have m3 : v / 16 % 16 < 16 := Nat.mod_lt _ (by norm_num)
  have m4 : v % 16 < 16 := Nat.mod_lt _ (by norm_num)
  have n1 : w / 4096 % 16 < 16 := Nat.mod_lt _ (by norm_num)
  have n2 : w / 256 % 16 < 16 := Nat.mod_lt _ (by norm_num)
  have n3 : w / 16 % 16 < 16 := Nat.mod_lt _ (by norm_num)
  have n4 : w % 16 < 16 := Nat.mod_lt _ (by norm_num)
  have e1 : ((v / 4096 % 16 * 16 + v / 256 % 16) * 16 + v / 16 % 16) * 16 + v % 16 = v := by
    omega
  have e2 : ((w / 4096 % 16 * 16 + w / 256 % 16) * 16 + w / 16 % 16) * 16 + w % 16 = w := by
    omega
  simp +decide only [hex4, List.cons_append, List.nil_append, List.append_eq, parseStrF,
    if_true, if_false, hexVal_hexDigit m1, hexVal_hexDigit m2, hexVal_hexDigit m3,
    hexVal_hexDigit m4, hexVal_hexDigit n1, hexVal_hexDigit n2, hexVal_hexDigit n3,
    hexVal_hexDigit n4, e1, e2]
  rw [if_pos (by omega)]
  rw [if_pos (by omega)]

theorem char_valid_cases (c : Char) :
    c.toNat < 55296 ∨ (57343 < c.toNat ∧ c.toNat < 1114112) := by
  have he : c.toNat = c.val.toNat := rfl
  rcases c.valid with h | h
  · exact Or.inl (by omega)
  · exact Or.inr ⟨by omega, by omega⟩

theorem parseStrF_encStr : ∀ (cs r : List Char) (fuel : Nat), cs.length < fuel →
    parseStrF fuel (encStr cs ++ '\"' :: r) = some (cs, r) := by
  intro cs
  induction cs with
  | nil =>
    intro r fuel hf
    cases fuel with
    | zero => omega
    | succ f =>
      simp +decide only [encStr, List.map_nil, List.flatten_nil, List.nil_append, parseStrF,
        if_true, if_false]
  | cons c cs ih =>
    intro r fuel hf
    cases fuel with
    | zero => omega
    | succ f =>
      have hcs : parseStrF f (encStr cs ++ '\"' :: r) = some (cs, r) := by
        apply ih
        simp only [List.length_cons] at hf
        omega
      have hstep : encStr (c :: cs) ++ '\"' :: r = escChar c ++ (encStr cs ++ '\"' :: r) := by
        simp [encStr, List.append_assoc]
      rw [hstep]
      by_cases h1 : c = '\"'
      · subst h1
        simp +decide only [escChar, List.cons_append, List.nil_append, List.append_eq,
          parseStrF, decodeEsc, if_true, if_false]
        rw [hcs]
        rfl
      by_cases h2 : c = '\\'
      · subst h2
        simp +decide only [escChar, List.cons_append, List.nil_append, List.append_eq,
          parseStrF, decodeEsc, if_true, if_false]
        rw [hcs]
        rfl
      by_cases h3 : c = '\n'
      · subst h3
        simp +decide only [escChar, List.cons_append, List.nil_append, List.append_eq,
          parseStrF, decodeEsc, if_true, if_false]
        rw [hcs]
        rfl
      by_cases h4 : c = '\x0d'
      · subst h4
        simp +decide only [escChar, List.cons_append, List.nil_append, List.append_eq,
          parseStrF, decodeEsc, if_true, if_false]
        rw [hcs]
        rfl
      by_cases h5 : c = '\t'
      · subst h5
        simp +decide only [escChar, List.cons_append, List.nil_append, List.append_eq,
          parseStrF, decodeEsc, if_true, if_false]
        rw [hcs]
        rfl
      by_cases h6 : c.toNat = 8
      · have hc8 : Char.ofNat 8 = c := by rw [← h6, Char.ofNat_toNat]
        rw [escChar, if_neg h1, if_neg h2, if_neg h3, if_neg h4, if_neg h5, if_pos h6]
        simp +decide only [List.cons_append, List.nil_append, List.append_eq,
          parseStrF, decodeEsc, if_true, if_false]
        rw [hcs, hc8]
        rfl
      by_cases h7 : c.toNat = 12
      · have hc12 : Char.ofNat 12 = c := by rw [← h7, Char.ofNat_toNat]
        rw [escChar, if_neg h1, if_neg h2, if_neg h3, if_neg h4, if_neg h5, if_neg h6,
          if_pos h7]
        simp +decide only [List.cons_append, List.nil_append, List.append_eq,
          parseStrF, decodeEsc, if_true, if_false]
        rw [hcs, hc12]
        rfl
      by_cases h8 : c.toNat < 32
      · rw [escChar, if_neg h1, if_neg h2, if_neg h3, if_neg h4, if_neg h5, if_neg h6,
          if_neg h7, if_pos h8]
        simp only [List.cons_append]
        rw [parseStrF_u f c.toNat (Or.inl (by omega)), hcs, Char.ofNat_toNat]
        rfl
      by_cases h9 : c.toNat < 127
      · rw [escChar, if_neg h1, if_neg h2, if_neg h3, if_neg h4, if_neg h5, if_neg h6,
          if_neg h7, if_neg h8, if_pos h9, List.singleton_append]
        simp only [parseStrF]
        rw [if_neg h1, if_neg h2, hcs]
        rfl
      by_cases h10 : c.toNat < 65536
      · rw [escChar, if_neg h1, if_neg h2, if_neg h3, if_neg h4, if_neg h5, if_neg h6,
          if_neg h7, if_neg h8, if_neg h9, if_pos h10]
        simp only [List.cons_append]
        have hv : c.toNat < 55296 ∨ (57343 < c.toNat ∧ c.toNat < 65536) := by
          rcases char_valid_cases c with h | h
          · exact Or.inl h
          · exact Or.inr ⟨h.1, h10⟩
        rw [parseStrF_u f c.toNat hv, hcs, Char.ofNat_toNat]
        rfl
      · have hrange := char_valid_cases c
        have hge : 65536 ≤ c.toNat := by omega
        have hlt : c.toNat < 1114112 := by omega
        have hv : 55296 ≤ 55296 + (c.toNat - 65536) / 1024
            ∧ 55296 + (c.toNat - 65536) / 1024 < 56320 := by omega
        have hw : 56320 ≤ 56320 + (c.toNat - 65536) % 1024
            ∧ 56320 + (c.toNat - 65536) % 1024 < 57344 := by
          have := Nat.mod_lt (c.toNat - 65536) (show 0 < 1024 by norm_num)
          omega
        rw [escChar, if_neg h1, if_neg h2, if_neg h3, if_neg h4, if_neg h5, if_neg h6,
          if_neg h7, if_neg h8, if_neg h9, if_neg h10]
        simp only [List.cons_append, List.append_assoc]
        rw [parseStrF_u2 f _ _ hv hw, hcs]
        have hval : 65536 + (55296 + (c.toNat - 65536) / 1024 - 55296) * 1024
            + (56320 + (c.toNat - 65536) % 1024 - 56320) = c.toNat := by
          omega
        rw [hval, Char.ofNat_toNat]
        rfl

set_option maxHeartbeats 1000000 in
theorem escChar_length_pos (c : Char) : 1 ≤ (escChar c).length := by
  unfold escChar
  split_ifs <;> simp [hex4]

theorem encStr_length (cs : List Char) : cs.length ≤ (encStr cs).length := by
  induction cs with
  | nil => simp [encStr]
  | cons c cs ih =>
    have h1 := escChar_length_pos c
    simp only [encStr, List.map_cons, List.flatten_cons, List.length_append,
      List.length_cons] at ih ⊢
    omega

theorem parseStr_encStr (cs r : List Char) :
    parseStr (encStr cs ++ '\"' :: r) = some (cs, r) := by
  apply parseStrF_encStr
  have := encStr_length cs
  simp only [List.length_append, List.length_cons]
  omega

theorem dropLit_append : ∀ lit s : List Char, dropLit lit (lit ++ s) = some s
  | [], s => rfl
  | a :: u, s => by simp [dropLit, dropLit_append u s]

theorem parseEntry_encEntry (e : IndexEntry) (r : List Char) :
    parseEntry (encEntry e ++ r) = some (e, r) := by
  have hhead : ∀ c : Char,
      (objKey2 ++ (encStr e.sentence ++ '\"' :: '\x7d' :: r)).head? = some c →
        c.isDigit = false := by
    intro c hc
    simp only [objKey2, List.cons_append, List.head?_cons, Option.some.injEq] at hc
    subst hc
    decide
  have hshape : encEntry e ++ r
      = objKey1 ++ (natToChars e.pageNumber
          ++ (objKey2 ++ (encStr e.sentence ++ '\"' :: '\x7d' :: r))) := by
    simp [encEntry, List.append_assoc]
  rw [hshape]
  simp +decide only [parseEntry, dropLit_append,
    parseNat_append e.pageNumber _ hhead, parseStr_encStr, if_true, if_false]

theorem parseItems_append :
    ∀ (es : List IndexEntry) (e : IndexEntry) (r : List Char) (fuel : Nat),
      es.length < fuel →
      parseItems fuel (joinSep ((e :: es).map encEntry) ++ ']' :: r) = some (e :: es, r) := by
  intro es
  induction es with
  | nil =>
    intro e r fuel hf
    cases fuel with
    | zero => omega
    | succ f =>
      simp +decide only [List.map_cons, List.map_nil, joinSep, parseItems,
        parseEntry_encEntry, if_true, if_false]
  | cons e2 es ih =>
    intro e r fuel hf
    cases fuel with
    | zero => omega
    | succ f =>
      have hrec := ih e2 r f (by simp only [List.length_cons] at hf; omega)
      have hshape : joinSep ((e :: e2 :: es).map encEntry) ++ ']' :: r
          = encEntry e ++ (',' :: ' ' :: (joinSep ((e2 :: es).map encEntry) ++ ']' :: r)) := by
        simp [joinSep, List.append_assoc]
      rw [hshape]
      simp +decide only [parseItems, parseEntry_encEntry, if_true, if_false]
      rw [hrec]

theorem encEntry_length_pos (e : IndexEntry) : 1 ≤ (encEntry e).length := by
  simp [encEntry, objKey1]

theorem joinSep_length :
    ∀ l : List IndexEntry, l.length ≤ (joinSep (l.map encEntry)).length
  | [] => by simp [joinSep]
  | [x] => by
    have := encEntry_length_pos x
    simpa [joinSep] using this
  | x :: y :: t => by
    have h1 := encEntry_length_pos x
    have h2 := joinSep_length (y :: t)
    simp only [List.map_cons, joinSep, List.length_append, List.length_cons] at h2 ⊢
    omega

/-- C8: the cache round trip.  Parsing the exact character contents that
`save_index_to_file` writes (`json.dump` of the index) with the
`load_index_from_file` parser (`json.load` of that layout) returns the saved
index unchanged, for every index, the empty one included. -/
theorem load_save_roundtrip (index : List IndexEntry) :
    load_index_from_file (save_index_to_file index) = some index := by
  cases index with
  | nil => rfl
  | cons e es =>
    have hjlen := joinSep_length (e :: es)
    simp only [List.length_cons] at hjlen
    have hne : ¬ joinSep ((e :: es).map encEntry) ++ [']'] = [']'] := by
      intro h
      have := congrArg List.length h
      simp only [List.length_append, List.length_cons, List.length_nil] at this
      omega
    have hflt : es.length < (joinSep ((e :: es).map encEntry) ++ [']']).length := by
      simp only [List.length_append, List.length_cons, List.length_nil]
      omega
    show load_index_from_file
        ('[' :: (joinSep ((e :: es).map encEntry) ++ [']'])) = some (e :: es)
    simp only [load_index_from_file, if_true]
    rw [if_neg hne]
    rw [show joinSep ((e :: es).map encEntry) ++ [']']
        = joinSep ((e :: es).map encEntry) ++ ']' :: [] from rfl]
    rw [parseItems_append es e [] _ hflt]
    rfl
